import Mathlib

/-!
Verification of the RedoxFS filesystem / scheme-resource layer.

The definitions below are a shallow embedding of the Rust sources:
* `src/src/schemes/src/file.rs` — `Header`, `NodeData`, `Node`, `FileSystem`
  (`from_disk`, `node`, `list`), `FileResource` (`read`, `write`, `seek`,
  `sync`) and the directory-listing part of `FileScheme::open`;
* `src/filesystem/apps/example/main.rs` — `ExampleFile::seek` and
  `ExampleScheme::open`.

Byte strings are modelled as `List Nat`, machine integers as `Nat`/`Int`
(with explicit two's-complement wrapping where the code can overflow).
The block-device driver is out of scope of the repository (only its
read/write contract is specified), so a disk is modelled as a record of
what those calls return: an `identify` flag, the parsed sector-1 header,
and the `NodeData` record stored at each sector.  Definitions whose name
starts with `spec` are the specification-side formulations, written from
the spec's words, to be compared with the code-side definitions.
-/

namespace Redox

/-- An extent: a contiguous run of 512-byte sectors, `(block, length in bytes)`.
`block = 0` or `length = 0` marks an unused slot (`file.rs`). -/
structure Extent where
  block : Nat
  length : Nat
deriving Repr, DecidableEq

/-- On-disk node record: 256-byte NUL-terminated name followed by 16 extents
(`NodeData` in `file.rs`). -/
structure NodeData where
  name : List Nat
  extents : List Extent
deriving Repr, DecidableEq

/-- In-memory node (`Node` in `file.rs`). -/
structure Node where
  address : Nat
  name : List Nat
  extents : List Extent
deriving Repr, DecidableEq

/-- `Node::new`: the name is the bytes of `data.name` up to the first NUL. -/
def Node.new (address : Nat) (data : NodeData) : Node :=
  { address := address
    name := data.name.takeWhile (fun c => c ≠ 0)
    extents := data.extents }

/-- Parsed sector-1 header (`Header` in `file.rs`): 8 signature bytes,
a version word, a volume name, 16 extents locating the node table. -/
structure Header where
  signature : List Nat
  version : Nat
  name : List Nat
  extents : List Extent
deriving Repr, DecidableEq

/-- Model of the external block device, reduced to the data the mount path
reads from it: the `identify()` result, the header parsed from sector 1,
and the `NodeData` record held by each sector of the node table. -/
structure ModelDisk where
  identify : Bool
  header : Header
  nodeAt : Nat → NodeData

/-- In-memory filesystem (`FileSystem` in `file.rs`, disk handle omitted). -/
structure FileSystem where
  header : Header
  nodes : List Node
deriving Repr, DecidableEq

/-- Signature check of `FileSystem::from_disk`: the eight byte-by-byte
comparisons against `"REDOXFS\0"`. -/
def checkSig (sig : List Nat) : Prop :=
  sig.getD 0 0 = 82 ∧ sig.getD 1 0 = 69 ∧ sig.getD 2 0 = 68 ∧
  sig.getD 3 0 = 79 ∧ sig.getD 4 0 = 88 ∧ sig.getD 5 0 = 70 ∧
  sig.getD 6 0 = 83 ∧ sig.getD 7 0 = 0

instance (sig : List Nat) : Decidable (checkSig sig) := by
  unfold checkSig; infer_instance

/-- Node-table loading loop of `FileSystem::from_disk`: for each header
extent with `block > 0 && length > 0`, the code reads `length` bytes from
disk, reinterprets them as `length / 512` `NodeData` records (record `i`
occupies sector `block + i`, a `NodeData` being exactly 512 bytes), and
pushes `Node::new(block + i, data)` for each. -/
def nodesOfExtents (disk : ModelDisk) : List Extent → List Node
  | [] => []
  | e :: rest =>
    (if 0 < e.block ∧ 0 < e.length then
      (List.range (e.length / 512)).map
        (fun i => Node.new (e.block + i) (disk.nodeAt (e.block + i)))
    else []) ++ nodesOfExtents disk rest

/-- `FileSystem::from_disk`: fail when `identify()` is false; read sector 1
as the header; verify signature `"REDOXFS\0"` and version `0xFFFFFFFF`;
build the node list from the header extents. -/
def fromDisk (disk : ModelDisk) : Option FileSystem :=
  if disk.identify then
    if checkSig disk.header.signature ∧ disk.header.version = 4294967295 then
      some { header := disk.header, nodes := nodesOfExtents disk disk.header.extents }
    else none
  else none

/-- Chunk loop of the read paths (`FileSystem::from_disk` and
`FileScheme::open`): while at least 65,536 sectors remain, issue a request
of `65536 * 512` bytes (65,536 sectors) and advance by 65,535 sectors;
then one final short request for the remainder.  Each element is
`(sector offset within the extent, sectors covered by the request)`. -/
def readChunkLoop (sectors sector : Nat) : List (Nat × Nat) :=
  if h : sectors - sector ≥ 65536 then
    (sector, 65536) :: readChunkLoop sectors (sector + 65535)
  else if sector < sectors then
    [(sector, sectors - sector)]
  else []
termination_by sectors - sector
decreasing_by omega

/-- Chunk loop of the write path (`FileResource::sync`): while at least
65,536 sectors remain, issue a 65,535-sector write and advance by 65,535;
then one final short write for the remainder. -/
def syncChunkLoop (sectors sector : Nat) : List (Nat × Nat) :=
  if h : sectors - sector ≥ 65536 then
    (sector, 65535) :: syncChunkLoop sectors (sector + 65535)
  else if sector < sectors then
    [(sector, sectors - sector)]
  else []
termination_by sectors - sector
decreasing_by omega

/-- `String::starts_with` on byte strings. -/
def startsWithBytes : List Nat → List Nat → Bool
  | [], _ => true
  | _ :: _, [] => false
  | d :: ds, c :: cs => d = c && startsWithBytes ds cs

/-- `FileSystem::list`: for every node whose name starts with `directory`,
push `name.substr(directory.len(), name.len() - directory.len())`. -/
def fsList (nodes : List (List Nat)) (directory : List Nat) : List (List Nat) :=
  match nodes with
  | [] => []
  | n :: rest =>
    if startsWithBytes directory n then
      n.drop directory.length :: fsList rest directory
    else fsList rest directory

/-- `String::find("/")`: index of the first `'/'` (byte 47). -/
def findSlash : List Nat → Option Nat
  | [] => none
  | c :: rest => if c = 47 then some 0 else (findSlash rest).map (· + 1)

/-- Line concatenation of `FileScheme::open`: append `line` to `list`,
separated by `'\n'` (byte 10), skipping empty lines. -/
def appendLine (list line : List Nat) : List Nat :=
  if line.length > 0 then
    (if list.length > 0 then list ++ 10 :: line else line)
  else list

/-- Directory-listing loop of `FileScheme::open`: for each stripped name,
either a leaf (no `'/'`) or the directory prefix up to and including the
first `'/'`; directory names already seen in `dirs` produce an empty line;
new ones are pushed onto `dirs`. -/
def buildList : List (List Nat) → List (List Nat) → List Nat → List Nat
  | [], _, list => list
  | file :: rest, dirs, list =>
    match findSlash file with
    | some index =>
      let dirname := file.take (index + 1)
      if dirname ∈ dirs then
        buildList rest dirs (appendLine list [])
      else
        buildList rest (dirs ++ [dirname]) (appendLine list dirname)
    | none => buildList rest dirs (appendLine list file)

/-- Directory content served by `FileScheme::open` for a listing path. -/
def dirContent (nodes : List (List Nat)) (path : List Nat) : List Nat :=
  buildList (fsList nodes path) [] []

/-- Routing test of `FileScheme::open`: `path.len() == 0 || path.ends_with("/")`. -/
def openIsDir (path : List Nat) : Bool :=
  path.length = 0 || path.getLast? = some 47

/-- Seek origin (`ResourceSeek` in `common/resource.rs`; its declaration is
outside the provided sources, its variant payloads are reconstructed from
their use in `FileResource::seek`: `Start` carries a `usize`, `Current` and
`End` carry an `isize`). -/
inductive ResourceSeek where
  | Start : Nat → ResourceSeek
  | Current : Int → ResourceSeek
  | End : Int → ResourceSeek
deriving Repr, DecidableEq

/-- Per-open file handle (`FileResource` in `file.rs`; the raw scheme
back-pointer is omitted, the node's extents are reached through `node`). -/
structure FileResource where
  node : Node
  vec : List Nat
  seek : Nat
  dirty : Bool
deriving Repr, DecidableEq

/-- Copy loop of `FileResource::read`: while `i < buf.len && seek < vec.len`,
copy `vec[seek]` out and advance both.  Returns the copied bytes and the
new seek; the fuel argument is the destination buffer length. -/
def readAux (vec : List Nat) : Nat → Nat → List Nat × Nat
  | seek, 0 => ([], seek)
  | seek, n + 1 =>
    if h : seek < vec.length then
      let t := readAux vec (seek + 1) n
      (vec.get ⟨seek, h⟩ :: t.1, t.2)
    else ([], seek)

/-- `FileResource::read`: returns `(bytes copied out, updated resource,
Some(count))`. -/
def FileResource.read (r : FileResource) (bufLen : Nat) :
    List Nat × FileResource × Option Nat :=
  let t := readAux r.vec r.seek bufLen
  (t.1, { r with seek := t.2 }, some t.1.length)

/-- First loop of `FileResource::write`: overwrite `vec[seek]` while
`i < buf.len && seek < vec.len`.  Returns `(vec, seek, unconsumed buffer,
bytes consumed)`. -/
def overwriteLoop : List Nat → Nat → List Nat → List Nat × Nat × List Nat × Nat
  | vec, seek, [] => (vec, seek, [], 0)
  | vec, seek, b :: rest =>
    if seek < vec.length then
      let t := overwriteLoop (vec.set seek b) (seek + 1) rest
      (t.1, t.2.1, t.2.2.1, t.2.2.2 + 1)
    else (vec, seek, b :: rest, 0)

/-- Second loop of `FileResource::write`: push the remaining bytes.
Returns `(vec, seek, bytes consumed)`. -/
def appendLoop : List Nat → Nat → List Nat → List Nat × Nat × Nat
  | vec, seek, [] => (vec, seek, 0)
  | vec, seek, b :: rest =>
    let t := appendLoop (vec ++ [b]) (seek + 1) rest
    (t.1, t.2.1, t.2.2 + 1)

/-- `FileResource::write`: overwrite then append; `dirty` is set when the
loop counter `i` ended positive; returns `Some(i)`. -/
def FileResource.write (r : FileResource) (buf : List Nat) :
    FileResource × Option Nat :=
  let o := overwriteLoop r.vec r.seek buf
  let a := appendLoop o.1 o.2.1 o.2.2.1
  let i := o.2.2.2 + a.2.2
  ({ r with
      vec := a.1
      seek := a.2.1
      dirty := if i > 0 then true else r.dirty }, some i)

/-- Zero-fill loop of `FileResource::seek`: `while vec.len() < seek` push 0. -/
def extendLoop (vec : List Nat) (s : Nat) : List Nat :=
  if h : vec.length < s then extendLoop (vec ++ [0]) s else vec
termination_by s - vec.length
decreasing_by simp only [List.length_append, List.length_cons, List.length_nil]; omega

/-- `FileResource::seek`: `Start(o)` assigns `o`; `Current(o)` assigns
`max(0, seek + o)`; `End(o)` assigns `max(0, vec.len + o)` (both computed
in `isize` and clamped at 0); then the buffer is zero-extended up to the
new seek, which is returned. -/
def FileResource.seekOp (r : FileResource) (pos : ResourceSeek) :
    FileResource × Option Nat :=
  let s : Nat :=
    match pos with
    | ResourceSeek.Start offset => offset
    | ResourceSeek.Current offset => (max 0 ((r.seek : Int) + offset)).toNat
    | ResourceSeek.End offset => (max 0 ((r.vec.length : Int) + offset)).toNat
  ({ r with seek := s, vec := extendLoop r.vec s }, some s)

/-- Extent walk of `FileResource::sync`: `remaining` starts at `vec.len()`;
for each extent with `block > 0 && length > 0`, `size =
min(remaining, ceil(length/512) * 512)` bytes of the buffer are written to
the extent; when `size` differs from the stored `length` the in-memory
extent length is updated and the local `node_dirty` flag set.  Returns
`(updated extents, remaining after the walk, node_dirty)`. -/
def syncExtents : Nat → List Extent → List Extent × Nat × Bool
  | remaining, [] => ([], remaining, false)
  | remaining, e :: rest =>
    if 0 < e.block ∧ 0 < e.length then
      let currentSectors := (e.length + 511) / 512
      let maxSize := currentSectors * 512
      let size := min remaining maxSize
      let t := syncExtents (remaining - size) rest
      if size = e.length then
        (e :: t.1, t.2.1, t.2.2)
      else
        ({ block := e.block, length := size } :: t.1, t.2.1, true)
    else
      let t := syncExtents remaining rest
      (e :: t.1, t.2.1, t.2.2)

/-- `FileResource::sync`: nothing to do unless dirty; otherwise walk the
extents, clear `dirty`, and return `false` exactly when buffer bytes
remain after all extents are consumed. -/
def FileResource.sync (r : FileResource) : FileResource × Bool :=
  if r.dirty then
    let t := syncExtents r.vec.length r.node.extents
    let r' : FileResource :=
      { r with node := { r.node with extents := t.1 }, dirty := false }
    if t.2.1 > 0 then (r', false) else (r', true)
  else (r, true)

/-- Error values of the `system` crate used by the example scheme. -/
inductive SysError where
  | einval
  | ebadf
  | enoent
deriving Repr, DecidableEq

/-- Reinterpretation `offset as isize` of a `usize` (two's complement). -/
def usizeToIsize (o : Nat) : Int :=
  if o < 2 ^ 63 then (o : Int) else (o : Int) - 2 ^ 64

/-- Per-handle state of the example user-space scheme
(`ExampleFile` in `filesystem/apps/example/main.rs`). -/
structure ExampleFile where
  data : List Nat
  seek : Nat
deriving Repr, DecidableEq

/-- `ExampleFile::seek`: for `SEEK_SET`/`SEEK_CUR`/`SEEK_END` (0/1/2) the
code assigns `min(0, max(data.len as isize, candidate))` cast back to
`usize` and returns `Ok(seek)`; any other whence is `Err(EINVAL)`. -/
def ExampleFile.seekOp (f : ExampleFile) (offset : Nat) (whence : Nat) :
    Except SysError (Nat × ExampleFile) :=
  if whence = 0 then
    let s := (min 0 (max ((f.data.length : Int)) (usizeToIsize offset))).toNat
    Except.ok (s, { f with seek := s })
  else if whence = 1 then
    let s := (min 0 (max ((f.data.length : Int))
      ((f.seek : Int) + usizeToIsize offset))).toNat
    Except.ok (s, { f with seek := s })
  else if whence = 2 then
    let s := (min 0 (max ((f.data.length : Int))
      ((f.data.length : Int) + usizeToIsize offset))).toNat
    Except.ok (s, { f with seek := s })
  else
    Except.error SysError.einval

/-- Largest `isize` value (64-bit). -/
def isizeMax : Nat := 2 ^ 63 - 1

/-- Two's-complement `isize` increment (`self.next_id += 1`). -/
def wrapAdd1 (n : Int) : Int := (n + 1 + 2 ^ 63) % 2 ^ 64 - 2 ^ 63

/-- Handle-table state of the example scheme (`ExampleScheme`): the id
counter and the key set of the `files` map. -/
structure ExampleScheme where
  nextId : Int
  files : List Nat
deriving Repr, DecidableEq

/-- `ExampleScheme::new()`. -/
def initScheme : ExampleScheme := { nextId := 1, files := [] }

/-- `ExampleScheme::open`: hand out `next_id as usize`, increment the
counter (two's-complement), reset it to 1 when it went negative, and
insert the id into the files map (an insert over an existing key replaces
the old entry, so the key set gains at most the new id).  The counter is
1 at start and every exit path leaves it in `[1, isizeMax]`, where the
`as usize` cast agrees with `Int.toNat`. -/
def ExampleScheme.openOp (s : ExampleScheme) : Nat × ExampleScheme :=
  let id := s.nextId.toNat
  let n1 := wrapAdd1 s.nextId
  let n2 := if n1 < 0 then 1 else n1
  (id, { nextId := n2, files := s.files.insert id })

/-- State after `k` consecutive `open` calls. -/
def openN : Nat → ExampleScheme → ExampleScheme
  | 0, s => s
  | k + 1, s => openN k (s.openOp).2

/-- Sum of the sector-rounded byte capacities of the used extents; spec
formulation of how many buffer bytes `sync` can place. -/
def specCapacity : List Extent → Nat
  | [] => 0
  | e :: rest =>
    (if 0 < e.block ∧ 0 < e.length then ((e.length + 511) / 512) * 512 else 0) +
      specCapacity rest

/-- Extent lengths after a flush, as the spec words it: each used extent
receives `min(remaining, ceil(length/512) * 512)` bytes and its stored
length becomes that size; unused extents are untouched. -/
def specSyncExtents : Nat → List Extent → List Extent
  | _, [] => []
  | remaining, e :: rest =>
    if 0 < e.block ∧ 0 < e.length then
      let size := min remaining (((e.length + 511) / 512) * 512)
      { block := e.block, length := size } :: specSyncExtents (remaining - size) rest
    else e :: specSyncExtents remaining rest

/-- Spec formulation of the node list built at mount: every header extent
with `block > 0` and `length > 0` contributes its `length / 512` node
records, record `i` becoming a node at address `block + i`. -/
def specNodes (disk : ModelDisk) : List Node :=
  (disk.header.extents.filter (fun e => decide (0 < e.block ∧ 0 < e.length))).flatMap
    (fun e => (List.range (e.length / 512)).map
      (fun i => Node.new (e.block + i) (disk.nodeAt (e.block + i))))

/-- Spec formulation of the directory-listing lines: each stripped name
yields either its directory prefix up to and including the first `'/'`
(skipped when already seen, first occurrence kept) or, when it has no
`'/'`, the leaf name itself (skipped when empty). -/
def specLines : List (List Nat) → List (List Nat) → List (List Nat)
  | [], _ => []
  | f :: rest, seen =>
    match findSlash f with
    | some i =>
      let d := f.take (i + 1)
      if d ∈ seen then specLines rest seen
      else d :: specLines rest (seen ++ [d])
    | none =>
      if f.length > 0 then f :: specLines rest seen else specLines rest seen

/-- Join of the lines after the first: `'\n'` before each line. -/
def tailLines (ls : List (List Nat)) : List Nat :=
  ls.flatMap (fun l => 10 :: l)

/-- Newline join of a list of lines. -/
def joinLines : List (List Nat) → List Nat
  | [] => []
  | l :: rest => l ++ tailLines rest

/-- A chunk list tiles the sector interval `[from, to)`: the chunks are
consecutive, non-empty, start at `from` and end exactly at `to`. -/
def consecFrom : Nat → List (Nat × Nat) → Nat → Prop
  | s, [], t => s = t
  | s, (b, c) :: rest, t => b = s ∧ 0 < c ∧ consecFrom (s + c) rest t

/-- The ids `[k, k-1, ..., 1]`: key set of the example scheme's map after
`k` opens (most recent first, matching `List.insert`). -/
def descList : Nat → List Nat
  | 0 => []
  | k + 1 => (k + 1) :: descList k

/-- The 16-extent table of the "sync when full" scenario: one used extent
of 512 bytes at block 3, fifteen empty slots. -/
def sampleExtents : List Extent :=
  Extent.mk 3 512 :: List.replicate 15 (Extent.mk 0 0)

/-- A node holding a single 512-byte extent. -/
def sampleNode : Node :=
  { address := 2, name := [104, 105], extents := sampleExtents }

/-- The resource as opened on `sampleNode`: a 512-byte buffer, seek 0,
clean. -/
def exampleOpened : FileResource :=
  { node := sampleNode, vec := List.replicate 512 0, seek := 0, dirty := false }

/-- The resource after writing 600 bytes at offset 0. -/
def exampleWritten : FileResource :=
  (exampleOpened.write (List.replicate 600 7)).1

/-- A small open resource used to instantiate the read/seek theorems. -/
def sampleRes : FileResource :=
  { node := { address := 0, name := [], extents := [] }
    vec := [5, 6, 7], seek := 1, dirty := false }

/-- A disk whose sector 1 carries the signature `"NOTREDOX"` with version
`0xFFFFFFFF`. -/
def badDisk : ModelDisk :=
  { identify := true
    header := { signature := [78, 79, 84, 82, 69, 68, 79, 88]
                version := 4294967295, name := [], extents := [] }
    nodeAt := fun _ => { name := [], extents := [] } }

/-- A disk with a valid header and a two-record node table at blocks 2
and 3. -/
def goodDisk : ModelDisk :=
  { identify := true
    header := { signature := [82, 69, 68, 79, 88, 70, 83, 0]
                version := 4294967295, name := [], extents := [Extent.mk 2 1024] }
    nodeAt := fun s => { name := [100 + s, 0], extents := [Extent.mk 3 5] } }

theorem take_set_succ (vec : List Nat) (seek b : Nat) (h : seek < vec.length) :
    (vec.set seek b).take (seek + 1) = vec.take seek ++ [b] := by
  induction vec generalizing seek with
  | nil => simp at h
  | cons v vs ih =>
    cases seek with
    | zero => simp
    | succ s =>
      simp only [List.length_cons, Nat.succ_lt_succ_iff] at h
      simp only [List.set, List.take, List.cons_append]
      rw [ih s h]

theorem drop_set_high (vec : List Nat) (seek b n : Nat) (h : seek < n) :
    (vec.set seek b).drop n = vec.drop n := by
  induction vec generalizing seek n with
  | nil => simp
  | cons v vs ih =>
    cases n with
    | zero => omega
    | succ m =>
      cases seek with
      | zero => simp
      | succ s =>
        simp only [List.set, List.drop]
        exact ih s m (by omega)

theorem appendLoop_spec (buf vec : List Nat) (seek : Nat) :
    appendLoop vec seek buf = (vec ++ buf, seek + buf.length, buf.length) := by
  induction buf generalizing vec seek with
  | nil => simp [appendLoop]
  | cons b rest ih =>
    simp only [appendLoop, ih, List.append_assoc, List.singleton_append,
      List.length_cons, Prod.mk.injEq]
    refine ⟨by trivial, by omega, by trivial⟩

theorem writeLoops_spec (buf vec : List Nat) (seek : Nat) (h : seek ≤ vec.length) :
    (appendLoop (overwriteLoop vec seek buf).1 (overwriteLoop vec seek buf).2.1
        (overwriteLoop vec seek buf).2.2.1).1 =
      vec.take seek ++ buf ++ vec.drop (seek + buf.length) ∧
    (appendLoop (overwriteLoop vec seek buf).1 (overwriteLoop vec seek buf).2.1
        (overwriteLoop vec seek buf).2.2.1).2.1 = seek + buf.length ∧
    (overwriteLoop vec seek buf).2.2.2 +
        (appendLoop (overwriteLoop vec seek buf).1 (overwriteLoop vec seek buf).2.1
          (overwriteLoop vec seek buf).2.2.1).2.2 = buf.length := by
  induction buf generalizing vec seek with
  | nil =>
    simp [overwriteLoop, appendLoop, List.take_append_drop]
  | cons b rest ih =>
    by_cases hlt : seek < vec.length
    · have hlen : seek + 1 ≤ (vec.set seek b).length := by
        simp only [List.length_set]; omega
      have hih := ih (vec.set seek b) (seek + 1) hlen
      simp only [overwriteLoop, if_pos hlt]
      refine ⟨?_, ?_, ?_⟩
      · rw [hih.1, take_set_succ vec seek b hlt,
          drop_set_high vec seek b (seek + 1 + rest.length) (by omega)]
        have harith : seek + 1 + rest.length = seek + (rest.length + 1) := by omega
        rw [harith]
        simp
      · rw [hih.2.1]; simp only [List.length_cons]; omega
      · have h3 := hih.2.2; simp only [List.length_cons]; omega
    · have hseek : seek = vec.length := by omega
      simp only [overwriteLoop, if_neg hlt]
      rw [appendLoop_spec]
      refine ⟨?_, ?_, ?_⟩
      · subst hseek
        rw [List.take_of_length_le (le_refl _),
          List.drop_of_length_le (by simp only [List.length_cons]; omega)]
        simp
      · simp
      · simp

theorem write_spec (r : FileResource) (buf : List Nat) (h : r.seek ≤ r.vec.length) :
    (r.write buf).1.vec = r.vec.take r.seek ++ buf ++ r.vec.drop (r.seek + buf.length) ∧
    (r.write buf).1.seek = r.seek + buf.length ∧
    (r.write buf).2 = some buf.length ∧
    (r.write buf).1.dirty = (if 0 < buf.length then true else r.dirty) ∧
    (r.write buf).1.node = r.node := by
  have hw := writeLoops_spec buf r.vec r.seek h
  simp only [FileResource.write]
  refine ⟨hw.1, hw.2.1, by rw [hw.2.2], by rw [hw.2.2], by trivial⟩

theorem readAux_spec (vec : List Nat) (n seek : Nat) :
    readAux vec seek n =
      ((vec.drop seek).take n, seek + min n (vec.length - seek)) := by
  induction n generalizing seek with
  | zero => simp [readAux]
  | succ m ih =>
    by_cases h : seek < vec.length
    · simp only [readAux, dif_pos h, ih (seek + 1), Prod.mk.injEq]
      refine ⟨?_, ?_⟩
      · rw [List.drop_eq_getElem_cons h, List.take_succ_cons, List.get_eq_getElem]
      · simp only [Nat.min_def]
        split <;> split <;> omega
    · have hd : vec.drop seek = [] := List.drop_eq_nil_of_le (by omega)
      have h0 : vec.length - seek = 0 := by omega
      simp only [readAux, dif_neg h, hd, List.take_nil, h0, Prod.mk.injEq]
      simp

theorem read_spec (r : FileResource) (bufLen : Nat) :
    (r.read bufLen).1 = (r.vec.drop r.seek).take bufLen ∧
    (r.read bufLen).1.length = min bufLen (r.vec.length - r.seek) ∧
    (r.read bufLen).2.1.seek = r.seek + min bufLen (r.vec.length - r.seek) ∧
    (r.read bufLen).2.2 = some (min bufLen (r.vec.length - r.seek)) ∧
    (r.read bufLen).2.1.vec = r.vec ∧
    (r.read bufLen).2.1.dirty = r.dirty := by
  have ha := readAux_spec r.vec bufLen r.seek
  have hl : ((r.vec.drop r.seek).take bufLen).length
      = min bufLen (r.vec.length - r.seek) := by
    simp [List.length_take, List.length_drop]
  simp only [FileResource.read, ha]
  exact ⟨by trivial, hl, by trivial, by rw [hl], by trivial, by trivial⟩

theorem extendLoop_spec (s : Nat) (vec : List Nat) :
    extendLoop vec s = vec ++ List.replicate (s - vec.length) 0 := by
  by_cases h : vec.length < s
  · have key : ∀ k vec, s - List.length vec = k →
        extendLoop vec s = vec ++ List.replicate (s - vec.length) 0 := by
      intro k
      induction k with
      | zero =>
        intro vec hk
        rw [extendLoop]
        have : ¬ vec.length < s := by omega
        rw [dif_neg this, hk]
        simp
      | succ m ih =>
        intro vec hk
        rw [extendLoop]
        by_cases h2 : vec.length < s
        · rw [dif_pos h2]
          have harg : s - List.length (vec ++ [0]) = m := by
            simp only [List.length_append, List.length_cons, List.length_nil]
            omega
          rw [ih (vec ++ [0]) harg]
          simp only [List.length_append, List.length_cons, List.length_nil,
            List.append_assoc, List.singleton_append]
          have : s - vec.length = (s - (vec.length + 1)) + 1 := by omega
          rw [this, List.replicate_succ]
        · rw [dif_neg h2]
          have : s - vec.length = 0 := by omega
          rw [this]; simp
    exact key (s - vec.length) vec rfl
  · rw [extendLoop, dif_neg h]
    have : s - vec.length = 0 := by omega
    rw [this]; simp

theorem seekOp_spec (r : FileResource) (pos : ResourceSeek) :
    (r.seekOp pos).1.seek =
      (match pos with
       | ResourceSeek.Start offset => offset
       | ResourceSeek.Current offset => (max 0 ((r.seek : Int) + offset)).toNat
       | ResourceSeek.End offset => (max 0 ((r.vec.length : Int) + offset)).toNat) ∧
    (r.seekOp pos).1.vec =
      r.vec ++ List.replicate ((r.seekOp pos).1.seek - r.vec.length) 0 ∧
    (r.seekOp pos).2 = some (r.seekOp pos).1.seek ∧
    (r.seekOp pos).1.dirty = r.dirty ∧
    (r.seekOp pos).1.node = r.node := by
  unfold FileResource.seekOp
  refine ⟨rfl, ?_, rfl, rfl, rfl⟩
  exact extendLoop_spec _ r.vec

theorem syncExtents_remaining (es : List Extent) : ∀ rem : Nat,
    (syncExtents rem es).2.1 = rem - specCapacity es := by
  induction es with
  | nil => intro rem; simp [syncExtents, specCapacity]
  | cons e rest ih =>
    intro rem
    by_cases hu : 0 < e.block ∧ 0 < e.length
    · simp only [syncExtents, if_pos hu, specCapacity]
      by_cases hs : min rem (((e.length + 511) / 512) * 512) = e.length
      · simp only [if_pos hs, ih]
        omega
      · simp only [if_neg hs, ih]
        omega
    · simp only [syncExtents, if_neg hu, specCapacity, ih]
      omega

theorem syncExtents_extents (es : List Extent) : ∀ rem : Nat,
    (syncExtents rem es).1 = specSyncExtents rem es := by
  induction es with
  | nil => intro rem; simp [syncExtents, specSyncExtents]
  | cons e rest ih =>
    intro rem
    by_cases hu : 0 < e.block ∧ 0 < e.length
    · simp only [syncExtents, if_pos hu, specSyncExtents]
      by_cases hs : min rem (((e.length + 511) / 512) * 512) = e.length
      · simp only [if_pos hs, ih]
        rw [hs]
      · simp only [if_neg hs, ih]
    · simp only [syncExtents, if_neg hu, specSyncExtents, ih]

theorem syncExtents_nodeDirty (es : List Extent) : ∀ rem : Nat,
    ((syncExtents rem es).2.2 = true ↔ specSyncExtents rem es ≠ es) := by
  induction es with
  | nil => intro rem; simp [syncExtents, specSyncExtents]
  | cons e rest ih =>
    intro rem
    by_cases hu : 0 < e.block ∧ 0 < e.length
    · by_cases hs : min rem (((e.length + 511) / 512) * 512) = e.length
      · have heq : Extent.mk e.block (min rem (((e.length + 511) / 512) * 512)) = e := by
          rw [hs]
        simp only [syncExtents, specSyncExtents, if_pos hu, if_pos hs, heq]
        rw [ih (rem - min rem (((e.length + 511) / 512) * 512))]
        constructor
        · intro hne habs
          exact hne ((List.cons.injEq _ _ _ _).mp habs).2
        · intro hne habs
          exact hne (by rw [habs])
      · simp only [syncExtents, specSyncExtents, if_pos hu, if_neg hs]
        constructor
        · intro _ habs
          apply hs
          have h1 := ((List.cons.injEq _ _ _ _).mp habs).1
          have h2 := congrArg Extent.length h1
          simpa using h2
        · intro _; trivial
    · simp only [syncExtents, specSyncExtents, if_neg hu]
      rw [ih rem]
      constructor
      · intro hne habs
        exact hne ((List.cons.injEq _ _ _ _).mp habs).2
      · intro hne habs
        exact hne (by rw [habs])

theorem sync_spec (r : FileResource) :
    (r.dirty = false → r.sync = (r, true)) ∧
    (r.dirty = true →
      (r.sync.1).dirty = false ∧
      (r.sync.1).vec = r.vec ∧
      (r.sync.1).seek = r.seek ∧
      (r.sync.1).node.extents = specSyncExtents r.vec.length r.node.extents ∧
      ((r.sync.2 = true) ↔ r.vec.length ≤ specCapacity r.node.extents)) := by
  constructor
  · intro hd
    simp [FileResource.sync, hd]
  · intro hd
    have hrem := syncExtents_remaining r.node.extents r.vec.length
    have hext := syncExtents_extents r.node.extents r.vec.length
    simp only [FileResource.sync, hd, if_pos]
    by_cases hr : (syncExtents r.vec.length r.node.extents).2.1 > 0
    · rw [if_pos hr]
      refine ⟨rfl, rfl, rfl, hext, ?_⟩
      constructor
      · intro habs
        simp at habs
      · intro hle
        exfalso
        omega
    · rw [if_neg hr]
      refine ⟨rfl, rfl, rfl, hext, ?_⟩
      constructor
      · intro _
        omega
      · intro _
        rfl

theorem consecFrom_nil (s t : Nat) (h : s = t) : consecFrom s [] t := h

theorem consecFrom_cons (s t b c : Nat) (rest : List (Nat × Nat))
    (hb : b = s) (hc : 0 < c) (h : consecFrom (s + c) rest t) :
    consecFrom s ((b, c) :: rest) t := ⟨hb.symm ▸ rfl, hc, h⟩

theorem syncChunkLoop_tiles (d : Nat) : ∀ sectors sector : Nat,
    sectors - sector = d → sector ≤ sectors →
    consecFrom sector (syncChunkLoop sectors sector) sectors ∧
    ∀ c ∈ syncChunkLoop sectors sector, c.2 ≤ 65535 := by
  induction d using Nat.strong_induction_on with
  | _ d ih =>
    intro sectors sector hd hle
    rw [syncChunkLoop]
    by_cases h1 : sectors - sector ≥ 65536
    · rw [dif_pos h1]
      have hih := ih (sectors - (sector + 65535)) (by omega) sectors
        (sector + 65535) rfl (by omega)
      constructor
      · exact consecFrom_cons _ _ _ _ _ rfl (by omega) hih.1
      · intro c hc
        rcases List.mem_cons.mp hc with hc | hc
        · subst hc; omega
        · exact hih.2 c hc
    · rw [dif_neg h1]
      by_cases h2 : sector < sectors
      · rw [if_pos h2]
        constructor
        · exact consecFrom_cons _ _ _ _ _ rfl (by omega)
            (consecFrom_nil _ _ (by omega))
        · intro c hc
          simp only [List.mem_singleton] at hc
          subst hc
          show sectors - sector ≤ 65535
          omega
      · rw [if_neg h2]
        constructor
        · exact consecFrom_nil _ _ (by omega)
        · intro c hc; simp at hc

theorem readChunkLoop_cover (d : Nat) : ∀ sectors sector : Nat,
    sectors - sector = d →
    (∀ c ∈ readChunkLoop sectors sector,
       c.2 ≤ 65536 ∧ sector ≤ c.1 ∧ c.1 + c.2 ≤ sectors) ∧
    (∀ i, sector ≤ i → i < sectors →
       ∃ c ∈ readChunkLoop sectors sector, c.1 ≤ i ∧ i < c.1 + c.2) := by
  induction d using Nat.strong_induction_on with
  | _ d ih =>
    intro sectors sector hd
    rw [readChunkLoop]
    by_cases h1 : sectors - sector ≥ 65536
    · rw [dif_pos h1]
      have hih := ih (sectors - (sector + 65535)) (by omega) sectors
        (sector + 65535) rfl
      constructor
      · intro c hc
        rcases List.mem_cons.mp hc with hc | hc
        · subst hc
          refine ⟨by omega, by omega, by omega⟩
        · have := hih.1 c hc
          exact ⟨this.1, by omega, this.2.2⟩
      · intro i hsi hi
        by_cases hin : i < sector + 65536
        · exact ⟨(sector, 65536), List.mem_cons_self _ _, by omega, by omega⟩
        · have := hih.2 i (by omega) hi
          rcases this with ⟨c, hc, hci⟩
          exact ⟨c, List.mem_cons_of_mem _ hc, hci⟩
    · rw [dif_neg h1]
      by_cases h2 : sector < sectors
      · rw [if_pos h2]
        constructor
        · intro c hc
          simp only [List.mem_singleton] at hc
          subst hc
          refine ⟨by omega, by omega, by omega⟩
        · intro i hsi hi
          exact ⟨(sector, sectors - sector), List.mem_singleton.mpr rfl,
            by omega, by omega⟩
      · rw [if_neg h2]
        constructor
        · intro c hc; simp at hc
        · intro i hsi hi; omega

theorem nodesOfExtents_eq (disk : ModelDisk) (es : List Extent) :
    nodesOfExtents disk es =
      (es.filter (fun e => decide (0 < e.block ∧ 0 < e.length))).flatMap
        (fun e => (List.range (e.length / 512)).map
          (fun i => Node.new (e.block + i) (disk.nodeAt (e.block + i)))) := by
  induction es with
  | nil => simp [nodesOfExtents]
  | cons e rest ih =>
    by_cases hu : 0 < e.block ∧ 0 < e.length
    · simp only [nodesOfExtents, if_pos hu, ih, List.filter_cons,
        decide_eq_true hu, List.flatMap_cons]
      simp
    · simp only [nodesOfExtents, if_neg hu, ih, List.filter_cons]
      rw [decide_eq_false hu]
      simp

theorem buildList_foldl (files : List (List Nat)) : ∀ dirs list,
    buildList files dirs list = (specLines files dirs).foldl appendLine list := by
  induction files with
  | nil => intro dirs list; simp [buildList, specLines]
  | cons f rest ih =>
    intro dirs list
    cases hf : findSlash f with
    | some i =>
      by_cases hmem : f.take (i + 1) ∈ dirs
      · simp only [buildList, specLines, hf, if_pos hmem, ih]
        have : appendLine list [] = list := by simp [appendLine]
        rw [this]
      · simp only [buildList, specLines, hf, if_neg hmem, ih, List.foldl_cons]
    | none =>
      by_cases hlen : f.length > 0
      · have hfe : f ≠ [] := by
          intro habs; subst habs; simp at hlen
        simp only [buildList, specLines, hf, if_pos hlen, ih, List.foldl_cons]
      · have hfe : f = [] := by
          cases f with
          | nil => rfl
          | cons a l => simp at hlen
        subst hfe
        simp only [buildList, specLines, hf, ih]
        have : appendLine list [] = list := by simp [appendLine]
        rw [this]
        simp

theorem specLines_ne_nil (files : List (List Nat)) : ∀ seen l,
    l ∈ specLines files seen → l ≠ [] := by
  induction files with
  | nil => intro seen l hl; simp [specLines] at hl
  | cons f rest ih =>
    intro seen l hl
    cases hf : findSlash f with
    | some i =>
      simp only [specLines, hf] at hl
      by_cases hmem : f.take (i + 1) ∈ seen
      · rw [if_pos hmem] at hl
        exact ih seen l hl
      · rw [if_neg hmem] at hl
        rcases List.mem_cons.mp hl with hl | hl
        · subst hl
          cases f with
          | nil => simp [findSlash] at hf
          | cons a l2 => simp [List.take_succ_cons]
        · exact ih (seen ++ [f.take (i + 1)]) l hl
    | none =>
      simp only [specLines, hf] at hl
      by_cases hlen : f.length > 0
      · rw [if_pos hlen] at hl
        rcases List.mem_cons.mp hl with hl | hl
        · subst hl
          intro habs; subst habs; simp at hlen
        · exact ih seen l hl
      · rw [if_neg hlen] at hl
        exact ih seen l hl

theorem foldl_appendLine_of_ne (ls : List (List Nat)) : ∀ list : List Nat,
    list ≠ [] → (∀ l ∈ ls, l ≠ []) →
    ls.foldl appendLine list = list ++ tailLines ls := by
  induction ls with
  | nil => intro list hne hls; simp [tailLines]
  | cons l rest ih =>
    intro list hne hls
    have hl : l ≠ [] := hls l (List.mem_cons_self _ _)
    have hstep : appendLine list l = list ++ 10 :: l := by
      unfold appendLine
      rw [if_pos (by cases l with | nil => exact absurd rfl hl | cons a t => simp),
        if_pos (by cases list with | nil => exact absurd rfl hne | cons a t => simp)]
    simp only [List.foldl_cons, hstep]
    rw [ih (list ++ 10 :: l) (by simp) (fun x hx => hls x (List.mem_cons_of_mem _ hx))]
    simp [tailLines]

theorem foldl_appendLine_nil (ls : List (List Nat)) (hls : ∀ l ∈ ls, l ≠ []) :
    ls.foldl appendLine [] = joinLines ls := by
  cases ls with
  | nil => simp [joinLines]
  | cons l rest =>
    have hl : l ≠ [] := hls l (List.mem_cons_self _ _)
    have hstep : appendLine [] l = l := by
      unfold appendLine
      rw [if_pos (by cases l with | nil => exact absurd rfl hl | cons a t => simp)]
      simp
    simp only [List.foldl_cons, hstep]
    rw [foldl_appendLine_of_ne rest l hl
      (fun x hx => hls x (List.mem_cons_of_mem _ hx))]
    simp [joinLines]

theorem dirContent_eq (nodes : List (List Nat)) (path : List Nat) :
    dirContent nodes path = joinLines (specLines (fsList nodes path) []) := by
  unfold dirContent
  rw [buildList_foldl]
  exact foldl_appendLine_nil _ (specLines_ne_nil _ [])

theorem findSlash_take (f : List Nat) : ∀ i, findSlash f = some i →
    findSlash (f.take (i + 1)) = some i := by
  induction f with
  | nil => intro i h; simp [findSlash] at h
  | cons c rest ih =>
    intro i h
    by_cases hc : c = 47
    · rw [findSlash, if_pos hc] at h
      injection h with h
      subst h
      simp only [List.take_succ_cons, List.take_zero]
      rw [findSlash, if_pos hc]
    · rw [findSlash, if_neg hc] at h
      cases hrest : findSlash rest with
      | none => rw [hrest] at h; simp at h
      | some j =>
        rw [hrest] at h
        simp at h
        subst h
        simp only [List.take_succ_cons]
        rw [findSlash, if_neg hc, ih j hrest]
        rfl

theorem specLines_dirs_nodup (files : List (List Nat)) : ∀ seen,
    ((specLines files seen).filter (fun l => (findSlash l).isSome)).Nodup ∧
    (∀ l ∈ (specLines files seen).filter (fun l => (findSlash l).isSome),
      l ∉ seen) := by
  induction files with
  | nil => intro seen; simp [specLines]
  | cons f rest ih =>
    intro seen
    cases hf : findSlash f with
    | some i =>
      by_cases hmem : f.take (i + 1) ∈ seen
      · simp only [specLines, hf, if_pos hmem]
        exact ih seen
      · simp only [specLines, hf, if_neg hmem]
        have hdir : (findSlash (f.take (i + 1))).isSome = true := by
          rw [findSlash_take f i hf]; rfl
        rw [List.filter_cons, if_pos hdir]
        have hih := ih (seen ++ [f.take (i + 1)])
        constructor
        · rw [List.nodup_cons]
          constructor
          · intro habs
            have := hih.2 _ habs
            simp at this
          · exact hih.1
        · intro l hl
          rcases List.mem_cons.mp hl with hl | hl
          · subst hl; exact hmem
          · have := hih.2 l hl
            intro habs
            exact this (by simp [habs])
    | none =>
      simp only [specLines, hf]
      by_cases hlen : f.length > 0
      · rw [if_pos hlen]
        have hleaf : (findSlash f).isSome = false := by rw [hf]; rfl
        rw [List.filter_cons, if_neg (by simp [hleaf])]
        exact ih seen
      · rw [if_neg hlen]
        exact ih seen

theorem mem_descList (k : Nat) : ∀ j, j ∈ descList k ↔ 1 ≤ j ∧ j ≤ k := by
  induction k with
  | zero => intro j; simp [descList]; omega
  | succ m ih =>
    intro j
    simp only [descList, List.mem_cons, ih]
    omega

theorem wrapAdd1_small (n : Int) (h0 : 0 ≤ n) (h1 : n < isizeMax) :
    wrapAdd1 n = n + 1 := by
  unfold wrapAdd1
  unfold isizeMax at h1
  omega

theorem wrapAdd1_max : wrapAdd1 (isizeMax : Nat) = -(2 ^ 63) := by
  unfold wrapAdd1 isizeMax
  norm_num

theorem openN_succ_back (k : Nat) : ∀ s : ExampleScheme,
    openN (k + 1) s = ((openN k s).openOp).2 := by
  induction k with
  | zero => intro s; rfl
  | succ m ih =>
    intro s
    show openN (m + 1) (s.openOp).2 = ((openN (m + 1) s).openOp).2
    rw [ih (s.openOp).2]
    rfl

theorem openN_closed (k : Nat) (hk : k ≤ isizeMax) :
    openN k initScheme =
      { nextId := if k = isizeMax then 1 else (k : Int) + 1, files := descList k } := by
  induction k with
  | zero =>
    have : (0 : Nat) ≠ isizeMax := by unfold isizeMax; omega
    simp [openN, initScheme, if_neg this, descList]
  | succ m ih =>
    have hm : m ≤ isizeMax := by omega
    have hmlt : m ≠ isizeMax := by omega
    rw [openN_succ_back, ih hm, if_neg hmlt]
    unfold ExampleScheme.openOp
    have hid : ((m : Int) + 1).toNat = m + 1 := by omega
    have hins : (descList m).insert (m + 1) = descList (m + 1) := by
      rw [List.insert_of_not_mem]
      · rfl
      · rw [mem_descList]
        omega
    by_cases hwrap : m + 1 = isizeMax
    · have : wrapAdd1 ((m : Int) + 1) = -(2 ^ 63) := by
        have : ((m : Int) + 1) = (isizeMax : Nat) := by
          rw [← hwrap]; push_cast; ring
        rw [this, wrapAdd1_max]
      simp only [hid, this, hins]
      rw [if_pos hwrap]
      norm_num
    · have hlt : ((m : Int) + 1) < isizeMax := by
        unfold isizeMax
        unfold isizeMax at hwrap hk
        omega
      have hw : wrapAdd1 ((m : Int) + 1) = (m : Int) + 2 := by
        rw [wrapAdd1_small _ (by omega) hlt]
        ring
      simp only [hid, hw, hins]
      rw [if_neg hwrap]
      have : ¬ ((m : Int) + 2 < 0) := by omega
      rw [if_neg this]
      norm_num
      ring

theorem clamp_zero (a b : Int) (ha : 0 ≤ a) : (min 0 (max a b)).toNat = 0 := by
  have h1 : (0 : Int) ≤ max a b := le_trans ha (le_max_left a b)
  rw [min_eq_left h1]
  rfl

/-- C1: `FileResource::sync` of a clean resource returns `true` and changes
nothing; on a dirty resource it clears the dirty flag, leaves the buffer
and seek untouched, gives each used extent the length
`min(remaining, ceil(length/512)*512)` in order (the spec-side
`specSyncExtents`), marks the node dirty exactly when some stored extent
length changed, and returns `true` exactly when the whole buffer fits the
extents' sector-rounded capacity; in particular writing 600 bytes over a
single 512-byte extent and syncing returns `false` with dirty cleared. -/
theorem sync_C1 (r : FileResource) :
    (r.dirty = false → r.sync = (r, true)) ∧
    (r.dirty = true →
      (r.sync.1).dirty = false ∧
      (r.sync.1).vec = r.vec ∧
      (r.sync.1).seek = r.seek ∧
      (r.sync.1).node.extents = specSyncExtents r.vec.length r.node.extents ∧
      ((r.sync.2 = true) ↔ r.vec.length ≤ specCapacity r.node.extents) ∧
      ((syncExtents r.vec.length r.node.extents).2.2 = true ↔
        specSyncExtents r.vec.length r.node.extents ≠ r.node.extents)) ∧
    (exampleWritten.sync.2 = false ∧ (exampleWritten.sync.1).dirty = false) := by
  have hs := sync_spec r
  refine ⟨hs.1, ?_, ?_⟩
  · intro hd
    have h2 := hs.2 hd
    exact ⟨h2.1, h2.2.1, h2.2.2.1, h2.2.2.2.1, h2.2.2.2.2,
      syncExtents_nodeDirty r.node.extents r.vec.length⟩
  · have hw := write_spec exampleOpened (List.replicate 600 7) (Nat.zero_le _)
    have hdirty : exampleWritten.dirty = true := by
      have hd := hw.2.2.2.1
      rw [List.length_replicate, if_pos (by norm_num)] at hd
      exact hd
    have hlen : exampleWritten.vec.length = 600 := by
      show (exampleOpened.write (List.replicate 600 7)).1.vec.length = 600
      rw [hw.1]
      have h1 : exampleOpened.vec = List.replicate 512 0 := rfl
      have h2 : exampleOpened.seek = 0 := rfl
      rw [h1, h2]
      simp only [List.length_append, List.length_take, List.length_drop,
        List.length_replicate]
      omega
    have hnode : exampleWritten.node = sampleNode := hw.2.2.2.2
    have hsy := (sync_spec exampleWritten).2 hdirty
    have hfalse : exampleWritten.sync.2 = false := by
      cases hb : exampleWritten.sync.2 with
      | false => rfl
      | true =>
        have hle := hsy.2.2.2.2.mp hb
        rw [hlen] at hle
        have hcap : specCapacity exampleWritten.node.extents = 512 := by
          rw [hnode]
          decide
        rw [hcap] at hle
        omega
    exact ⟨hfalse, hsy.1⟩

/-- C1 witness: a clean resource syncs to `true` unchanged. -/
theorem sync_C1_witness :
    exampleOpened.dirty = false ∧ exampleOpened.sync = (exampleOpened, true) :=
  ⟨rfl, (sync_C1 exampleOpened).1 rfl⟩

/-- C2 counterexample: at an extent of exactly 65,536 sectors the read
chunk loop of mount/open issues a request of 65,536 sectors — more than
the claimed 65,535 — and the loop request and the final short request both
cover sector 65,535, so the requests do not cover the extent exactly
once. -/
theorem chunk_C2_counterexample :
    readChunkLoop 65536 0 = [(0, 65536), (65535, 1)] ∧
    ¬ (∀ c ∈ readChunkLoop 65536 0, c.2 ≤ 65535) ∧
    (∃ c1 ∈ readChunkLoop 65536 0, ∃ c2 ∈ readChunkLoop 65536 0,
      c1 ≠ c2 ∧ c1.1 ≤ 65535 ∧ 65535 < c1.1 + c1.2 ∧
      c2.1 ≤ 65535 ∧ 65535 < c2.1 + c2.2) := by
  have h1 : readChunkLoop 65536 0 = [(0, 65536), (65535, 1)] := by
    rw [readChunkLoop, dif_pos (by norm_num)]
    rw [readChunkLoop, dif_neg (by norm_num), if_pos (by norm_num)]
  refine ⟨h1, ?_, ?_⟩
  · intro habs
    have := habs (0, 65536) (by rw [h1]; exact List.mem_cons_self _ _)
    norm_num at this
  · refine ⟨(0, 65536), by rw [h1]; exact List.mem_cons_self _ _,
      (65535, 1), by rw [h1]; simp, ?_⟩
    norm_num

/-- C2 amended: the write-back loop of `sync` issues requests of at most
65,535 sectors that tile the extent's sectors exactly once with no gap
and no overlap; the read loops of mount and open instead issue requests of
up to 65,536 sectors which stay inside the extent and together cover
every sector (with a one-sector overlap between a full loop request and
its successor). -/
theorem chunk_C2_amended (sectors : Nat) :
    (consecFrom 0 (syncChunkLoop sectors 0) sectors ∧
      ∀ c ∈ syncChunkLoop sectors 0, c.2 ≤ 65535) ∧
    ((∀ c ∈ readChunkLoop sectors 0, c.2 ≤ 65536 ∧ c.1 + c.2 ≤ sectors) ∧
      (∀ i < sectors, ∃ c ∈ readChunkLoop sectors 0, c.1 ≤ i ∧ i < c.1 + c.2)) := by
  have hs := syncChunkLoop_tiles (sectors - 0) sectors 0 rfl (Nat.zero_le _)
  have hr := readChunkLoop_cover (sectors - 0) sectors 0 rfl
  refine ⟨hs, ?_, ?_⟩
  · intro c hc
    exact ⟨(hr.1 c hc).1, (hr.1 c hc).2.2⟩
  · intro i hi
    exact hr.2 i (Nat.zero_le _) hi

/-- C2 witness: at 5 sectors the sync loop tiles `[0, 5)` and the read
loop covers sector 3. -/
theorem chunk_C2_witness :
    consecFrom 0 (syncChunkLoop 5 0) 5 ∧
    (∃ c ∈ readChunkLoop 5 0, c.1 ≤ 3 ∧ 3 < c.1 + c.2) :=
  ⟨(chunk_C2_amended 5).1.1, (chunk_C2_amended 5).2.2 3 (by norm_num)⟩

/-- C3: `FileResource::write` overwrites the buffer at `seek`, appends the
remainder past the end, advances `seek` by `buf.len`, returns `buf.len`,
sets `dirty` for every non-empty buffer, and a zero-length write changes
nothing. -/
theorem write_C3 (r : FileResource) (buf : List Nat) (h : r.seek ≤ r.vec.length) :
    (r.write buf).1.vec =
      r.vec.take r.seek ++ buf ++ r.vec.drop (r.seek + buf.length) ∧
    (r.write buf).1.seek = r.seek + buf.length ∧
    (r.write buf).2 = some buf.length ∧
    (buf ≠ [] → (r.write buf).1.dirty = true) ∧
    ((r.write []).1 = r ∧ (r.write []).2 = some 0) := by
  have hw := write_spec r buf h
  refine ⟨hw.1, hw.2.1, hw.2.2.1, ?_, rfl, rfl⟩
  intro hbuf
  have hpos : 0 < buf.length := by
    cases buf with
    | nil => exact absurd rfl hbuf
    | cons a t => simp
  rw [hw.2.2.2.1, if_pos hpos]

/-- C3 witness: writing two bytes at seek 1 of a 3-byte buffer. -/
theorem write_C3_witness :
    sampleRes.seek ≤ sampleRes.vec.length ∧
    (sampleRes.write [8, 9]).1.vec = [5, 8, 9] ∧
    (sampleRes.write [8, 9]).1.seek = 3 ∧
    (sampleRes.write [8, 9]).2 = some 2 ∧
    (sampleRes.write [8, 9]).1.dirty = true := by
  have h := write_C3 sampleRes [8, 9] (by decide)
  exact ⟨by decide, by rw [h.1]; decide, h.2.1, h.2.2.1,
    h.2.2.2.1 (by decide)⟩

/-- C4: `FileResource::seek` assigns `o` for `Start(o)`,
`max(0, seek + o)` for `Current(o)` and `max(0, len + o)` for `End(o)`,
zero-extends the buffer up to the new seek and returns it; in particular
`End(-k)` lands on `len - k` for `k ≤ len` and on 0 for `k > len`. -/
theorem seek_C4 (r : FileResource) (pos : ResourceSeek) :
    ((r.seekOp pos).1.seek =
      (match pos with
       | ResourceSeek.Start offset => offset
       | ResourceSeek.Current offset => (max 0 ((r.seek : Int) + offset)).toNat
       | ResourceSeek.End offset => (max 0 ((r.vec.length : Int) + offset)).toNat)) ∧
    (r.seekOp pos).1.vec =
      r.vec ++ List.replicate ((r.seekOp pos).1.seek - r.vec.length) 0 ∧
    (r.seekOp pos).2 = some (r.seekOp pos).1.seek ∧
    (∀ k : Nat, k ≤ r.vec.length →
      (r.seekOp (ResourceSeek.End (-(k : Int)))).1.seek = r.vec.length - k) ∧
    (∀ k : Nat, r.vec.length < k →
      (r.seekOp (ResourceSeek.End (-(k : Int)))).1.seek = 0) := by
  have hs := seekOp_spec r pos
  refine ⟨hs.1, hs.2.1, hs.2.2.1, ?_, ?_⟩
  · intro k hk
    have h1 : (r.seekOp (ResourceSeek.End (-(k : Int)))).1.seek =
        (max 0 ((r.vec.length : Int) + -(k : Int))).toNat :=
      (seekOp_spec r (ResourceSeek.End (-(k : Int)))).1
    rw [h1]
    omega
  · intro k hk
    have h1 : (r.seekOp (ResourceSeek.End (-(k : Int)))).1.seek =
        (max 0 ((r.vec.length : Int) + -(k : Int))).toNat :=
      (seekOp_spec r (ResourceSeek.End (-(k : Int)))).1
    rw [h1]
    omega

/-- C4 witness: `End(-2)` on a 3-byte buffer lands on seek 1. -/
theorem seek_C4_witness :
    (2 ≤ sampleRes.vec.length) ∧
    (sampleRes.seekOp (ResourceSeek.End (-(2 : Int)))).1.seek = 1 :=
  ⟨by decide, (seek_C4 sampleRes (ResourceSeek.Start 0)).2.2.2.1 2 (by decide)⟩

/-- C5: each of read, write and seek preserves the invariant
`seek ≤ buffer.len`. -/
theorem invariant_C5 (r : FileResource) (h : r.seek ≤ r.vec.length) :
    (∀ bufLen : Nat,
      (r.read bufLen).2.1.seek ≤ (r.read bufLen).2.1.vec.length) ∧
    (∀ buf : List Nat,
      (r.write buf).1.seek ≤ (r.write buf).1.vec.length) ∧
    (∀ pos : ResourceSeek,
      (r.seekOp pos).1.seek ≤ (r.seekOp pos).1.vec.length) := by
  refine ⟨?_, ?_, ?_⟩
  · intro bufLen
    have hr := read_spec r bufLen
    rw [hr.2.2.1, hr.2.2.2.2.1]
    have hm : min bufLen (r.vec.length - r.seek) ≤ r.vec.length - r.seek :=
      min_le_right _ _
    omega
  · intro buf
    have hw := write_spec r buf h
    rw [hw.1, hw.2.1]
    simp only [List.length_append, List.length_take, List.length_drop]
    omega
  · intro pos
    have hs := seekOp_spec r pos
    rw [hs.2.1]
    simp only [List.length_append, List.length_replicate]
    omega

/-- C5 witness: the invariant is preserved on a concrete resource. -/
theorem invariant_C5_witness :
    sampleRes.seek ≤ sampleRes.vec.length ∧
    (sampleRes.write [1, 2, 3, 4]).1.seek ≤
      (sampleRes.write [1, 2, 3, 4]).1.vec.length :=
  ⟨by decide, (invariant_C5 sampleRes (by decide)).2.1 [1, 2, 3, 4]⟩

/-- C6: `FileSystem::from_disk` returns `None` when `identify()` fails or
when sector 1 does not carry signature `"REDOXFS\0"` with version
`0xFFFFFFFF` (in particular for a `"NOTREDOX"` sector 1), and on a valid
header returns the filesystem whose nodes are built from every used header
extent, record `i` of an extent becoming the node at address
`block + i`. -/
theorem fromDisk_C6 (d : ModelDisk) :
    (d.identify = false → fromDisk d = none) ∧
    (¬ (checkSig d.header.signature ∧ d.header.version = 4294967295) →
      fromDisk d = none) ∧
    (fromDisk badDisk = none) ∧
    (d.identify = true → checkSig d.header.signature →
      d.header.version = 4294967295 →
      fromDisk d = some { header := d.header, nodes := specNodes d }) := by
  refine ⟨?_, ?_, ?_, ?_⟩
  · intro h
    simp [fromDisk, h]
  · intro h
    unfold fromDisk
    by_cases hid : d.identify = true
    · rw [if_pos hid, if_neg h]
    · rw [if_neg hid]
  · decide
  · intro h1 h2 h3
    unfold fromDisk
    rw [if_pos h1, if_pos (And.intro h2 h3), nodesOfExtents_eq]
    rfl

/-- C6 witness: a valid header with one 1024-byte node-table extent mounts
to the two nodes at addresses 2 and 3. -/
theorem fromDisk_C6_witness :
    goodDisk.identify = true ∧ checkSig goodDisk.header.signature ∧
    goodDisk.header.version = 4294967295 ∧
    fromDisk goodDisk = some { header := goodDisk.header, nodes := specNodes goodDisk } :=
  ⟨rfl, by decide, rfl, (fromDisk_C6 goodDisk).2.2.2 rfl (by decide) rfl⟩

/-- C7: for a listing path (empty or ending in `/`) the served directory
content is the newline join of the spec-side lines — each stripped node
name contributing its leaf name or its first-`/`-prefix directory name,
directory names deduplicated preserving first occurrence — and the
directory entries carry no duplicates; nodes `a/b`, `a/c`, `d` listed at
the empty path produce `a/\nd`. -/
theorem listing_C7 :
    (∀ (nodes : List (List Nat)) (path : List Nat), openIsDir path = true →
      dirContent nodes path = joinLines (specLines (fsList nodes path) [])) ∧
    (∀ (nodes : List (List Nat)) (path : List Nat),
      ((specLines (fsList nodes path) []).filter
        (fun l => (findSlash l).isSome)).Nodup) ∧
    dirContent [[97, 47, 98], [97, 47, 99], [100]] [] = [97, 47, 10, 100] := by
  refine ⟨?_, ?_, ?_⟩
  · intro nodes path _
    exact dirContent_eq nodes path
  · intro nodes path
    exact (specLines_dirs_nodup _ []).1
  · decide

/-- C7 witness: the empty path is a listing path and the concrete listing
agrees with the spec-side lines. -/
theorem listing_C7_witness :
    openIsDir [] = true ∧
    dirContent [[97, 47, 98], [97, 47, 99], [100]] [] =
      joinLines (specLines (fsList [[97, 47, 98], [97, 47, 99], [100]] []) []) :=
  ⟨by decide, listing_C7.1 [[97, 47, 98], [97, 47, 99], [100]] [] (by decide)⟩

/-- C8 counterexample: starting from a fresh example scheme, after
`2^63 - 1` opens with no close the id counter has wrapped and reset to 1,
and the next open hands out id 1 — an id already held by the still-open
first handle, so simultaneously open handles are not pairwise distinct. -/
theorem handles_C8_counterexample :
    ((openN (2 ^ 63 - 1) initScheme).openOp).1 ∈
      (openN (2 ^ 63 - 1) initScheme).files := by
  have hc := openN_closed (2 ^ 63 - 1) (by unfold isizeMax; omega)
  rw [hc, if_pos (by rfl)]
  show ((1 : Int).toNat) ∈ descList (2 ^ 63 - 1)
  rw [mem_descList]
  constructor
  · norm_num
  · norm_num

/-- C8 amended: handle ids are pairwise distinct among simultaneously open
handles as long as the counter has not wrapped — through the first
`2^63 - 1` opens each open hands out the fresh id `k + 1`; once the
counter wraps past the signed maximum and resets to 1, a newly handed-out
id collides with a still-open handle. -/
theorem handles_C8_amended (k : Nat) (hk : k < isizeMax) :
    ((openN k initScheme).openOp).1 = k + 1 ∧
    ((openN k initScheme).openOp).1 ∉ (openN k initScheme).files := by
  have hc := openN_closed k (le_of_lt hk)
  rw [hc, if_neg (by omega)]
  have hid : (({ nextId := (k : Int) + 1, files := descList k } :
      ExampleScheme).openOp).1 = k + 1 := by
    show ((k : Int) + 1).toNat = k + 1
    omega
  refine ⟨hid, ?_⟩
  rw [hid]
  show k + 1 ∉ descList k
  rw [mem_descList]
  omega

/-- C8 witness: the third open hands out id 3, distinct from the live
handles. -/
theorem handles_C8_witness :
    2 < isizeMax ∧ ((openN 2 initScheme).openOp).1 = 3 ∧
    ((openN 2 initScheme).openOp).1 ∉ (openN 2 initScheme).files := by
  have h := handles_C8_amended 2 (by unfold isizeMax; omega)
  exact ⟨by unfold isizeMax; omega, h.1, h.2⟩

/-- C9: `FileResource::read` copies exactly
`min(buf.len, buffer.len - seek)` bytes from `buffer[seek..]`, advances
`seek` by that count, leaves the buffer unchanged and returns
`Some(count)` — never `None`; and `seek(Start(n))` followed by a read
reaching EOF yields `buffer[n..]` for every `n ≤ buffer.len`. -/
theorem read_C9 (r : FileResource) (bufLen : Nat) :
    ((r.read bufLen).1 = (r.vec.drop r.seek).take bufLen ∧
     (r.read bufLen).1.length = min bufLen (r.vec.length - r.seek) ∧
     (r.read bufLen).2.1.seek = r.seek + min bufLen (r.vec.length - r.seek) ∧
     (r.read bufLen).2.1.vec = r.vec ∧
     (r.read bufLen).2.2 = some (min bufLen (r.vec.length - r.seek))) ∧
    (∀ n m : Nat, n ≤ r.vec.length → r.vec.length - n ≤ m →
      ((r.seekOp (ResourceSeek.Start n)).1.read m).1 = r.vec.drop n) := by
  have hr := read_spec r bufLen
  refine ⟨⟨hr.1, hr.2.1, hr.2.2.1, hr.2.2.2.2.1, hr.2.2.2.1⟩, ?_⟩
  intro n m hn hm
  have hs := seekOp_spec r (ResourceSeek.Start n)
  have hseek : (r.seekOp (ResourceSeek.Start n)).1.seek = n := hs.1
  have hvec : (r.seekOp (ResourceSeek.Start n)).1.vec = r.vec := by
    rw [hs.2.1, hseek]
    have h0 : n - r.vec.length = 0 := by omega
    rw [h0]
    simp
  have hr2 := read_spec ((r.seekOp (ResourceSeek.Start n)).1) m
  rw [hr2.1, hvec, hseek]
  apply List.take_of_length_le
  simp only [List.length_drop]
  omega

/-- C9 witness: `seek(Start(2))` then reading one byte of a 3-byte buffer
returns the final byte. -/
theorem read_C9_witness :
    2 ≤ sampleRes.vec.length ∧ sampleRes.vec.length - 2 ≤ 1 ∧
    ((sampleRes.seekOp (ResourceSeek.Start 2)).1.read 1).1 =
      sampleRes.vec.drop 2 :=
  ⟨by decide, by decide, (read_C9 sampleRes 0).2 2 1 (by decide) (by decide)⟩

/-- C10: `ExampleFile::seek` clamps with `min(0, max(len, candidate))`, so
for every valid whence (`SEEK_SET`, `SEEK_CUR`, `SEEK_END`) it sets the
position to 0 and returns `Ok(0)`; only an unknown whence yields
`Err(EINVAL)`. -/
theorem exampleSeek_C10 (f : ExampleFile) (offset : Nat) :
    f.seekOp offset 0 = Except.ok (0, { f with seek := 0 }) ∧
    f.seekOp offset 1 = Except.ok (0, { f with seek := 0 }) ∧
    f.seekOp offset 2 = Except.ok (0, { f with seek := 0 }) ∧
    (∀ w : Nat, w ≠ 0 → w ≠ 1 → w ≠ 2 →
      f.seekOp offset w = Except.error SysError.einval) := by
  have hc0 := clamp_zero ((f.data.length : Int)) (usizeToIsize offset)
    (Int.natCast_nonneg _)
  have hc1 := clamp_zero ((f.data.length : Int))
    ((f.seek : Int) + usizeToIsize offset) (Int.natCast_nonneg _)
  have hc2 := clamp_zero ((f.data.length : Int))
    ((f.data.length : Int) + usizeToIsize offset) (Int.natCast_nonneg _)
  refine ⟨?_, ?_, ?_, ?_⟩
  · simp only [ExampleFile.seekOp, hc0]
    norm_num
  · simp only [ExampleFile.seekOp, hc1]
    norm_num
  · simp only [ExampleFile.seekOp, hc2]
    norm_num
  · intro w h0 h1 h2
    simp only [ExampleFile.seekOp, if_neg h0, if_neg h1, if_neg h2]

/-- C10 witness: seeking 5 bytes from the end of a 3-byte file lands on 0,
and whence 7 is rejected. -/
theorem exampleSeek_C10_witness :
    (ExampleFile.mk [1, 2, 3] 2).seekOp 5 2 =
      Except.ok (0, ExampleFile.mk [1, 2, 3] 0) ∧
    (7 : Nat) ≠ 0 ∧
    (ExampleFile.mk [1, 2, 3] 2).seekOp 5 7 = Except.error SysError.einval :=
  ⟨(exampleSeek_C10 (ExampleFile.mk [1, 2, 3] 2) 5).2.2.1, by decide,
    (exampleSeek_C10 (ExampleFile.mk [1, 2, 3] 2) 5).2.2.2 7
      (by decide) (by decide) (by decide)⟩

end Redox
